import Mathlib

/-
Verification of the `dualset` crate (`src/hash.rs`, `src/lib.rs`).

The `Dual` trait's `key` accessor is modelled as an explicit function
`key : V → K`; the backing `std::collections::HashMap<T::Key, T>` is
modelled as an association list with pairwise-distinct keys (the list
order stands in for the hash map's unspecified iteration order).
Every `.unwrap()` in the source is modelled by returning `Option`,
where `none` is a panic.
-/

namespace Dualset

variable {K V : Type} [DecidableEq K]

/-- Model of `HashMap::get`: the value at the first entry whose key matches. -/
def mapGet : List (K × V) → K → Option V
  | [], _ => none
  | p :: ps, k => if p.1 = k then some p.2 else mapGet ps k

/-- Model of `HashMap::insert` (state part): replace the value at the matching
entry in place, or append a fresh entry. -/
def mapInsert : List (K × V) → K → V → List (K × V)
  | [], k, v => [(k, v)]
  | p :: ps, k, v => if p.1 = k then (k, v) :: ps else p :: mapInsert ps k v

/-- Model of `HashMap::remove`: the map without the matching entry, paired
with the removed value if one was present. -/
def mapRemove : List (K × V) → K → List (K × V) × Option V
  | [], _ => ([], none)
  | p :: ps, k =>
    if p.1 = k then (ps, some p.2)
    else
      let r := mapRemove ps k
      (p :: r.1, r.2)

/-- The keys of the underlying map are pairwise distinct (true of any
`HashMap`; an invariant of the model). -/
def KeysNodup (m : List (K × V)) : Prop := (m.map Prod.fst).Nodup

/-- `pub struct DualHashSet<T: Dual>(HashMap<T::Key, T>);` -/
structure DualHashSet (K V : Type) where
  entries : List (K × V)

/-- `DualHashSet::new` / `Default::default`. -/
def DualHashSet.new : DualHashSet K V := ⟨[]⟩

/-- `DualHashSet::insert`: stores the value under `value.key().clone()`;
the second component is the displaced prior occupant that
`HashMap::insert` returns. -/
def DualHashSet.insert (key : V → K) (s : DualHashSet K V) (v : V) :
    DualHashSet K V × Option V :=
  (⟨mapInsert s.entries (key v) v⟩, mapGet s.entries (key v))

/-- `DualHashSet::remove`. -/
def DualHashSet.remove (s : DualHashSet K V) (k : K) :
    DualHashSet K V × Option V :=
  (⟨(mapRemove s.entries k).1⟩, (mapRemove s.entries k).2)

/-- `DualHashSet::len`. -/
def DualHashSet.len (s : DualHashSet K V) : Nat := s.entries.length

/-- `DualHashSet::is_empty`. -/
def DualHashSet.is_empty (s : DualHashSet K V) : Bool := s.entries.isEmpty

/-- `DualHashSet::clear`. -/
def DualHashSet.clear (_s : DualHashSet K V) : DualHashSet K V := ⟨[]⟩

/-- `DualHashSet::contains`. -/
def DualHashSet.contains (s : DualHashSet K V) (k : K) : Bool :=
  (mapGet s.entries k).isSome

/-- `DualHashSet::get`. -/
def DualHashSet.get (s : DualHashSet K V) (k : K) : Option V :=
  mapGet s.entries k

/-- `DualHashSet::keys`: iterates the map's values and projects each
value's own key (`self.0.values()` mapped through `value.key()`). -/
def DualHashSet.keysList (key : V → K) (s : DualHashSet K V) : List K :=
  s.entries.map (fun p => key p.2)

/-- `pub struct DualHashSetRef<'a, T> { set: &'a mut DualHashSet<T>, key: T::Key }`.
The guard owns the container state while it is live. -/
structure DualHashSetRef (K V : Type) where
  set : DualHashSet K V
  key : K

/-- `DualHashSet::get_mut`: present ⇒ a guard remembering `value.key().clone()`. -/
def DualHashSet.get_mut (key : V → K) (s : DualHashSet K V) (k : K) :
    Option (DualHashSetRef K V) :=
  match DualHashSet.get s k with
  | some v => some ⟨s, key v⟩
  | none => none

/-- `DualHashSet::get_or_insert_with`: when `key` is absent the factory's
output is passed to `insert` (which files it under the output's own key);
the returned guard always remembers the requested `key`. -/
def DualHashSet.get_or_insert_with (key : V → K) (s : DualHashSet K V)
    (k : K) (f : K → V) : DualHashSetRef K V :=
  if DualHashSet.contains s k then ⟨s, k⟩
  else ⟨(DualHashSet.insert key s (f k)).1, k⟩

/-- `Deref for DualHashSetRef`: `self.set.0.get(&self.key).unwrap()`;
`none` models the unwrap panic. -/
def DualHashSetRef.deref (g : DualHashSetRef K V) : Option V :=
  mapGet g.set.entries g.key

/-- A write through `DerefMut for DualHashSetRef`: fetch
`self.set.0.get_mut(&self.key).unwrap()` and mutate the value in place
(`none` models the unwrap panic). -/
def DualHashSetRef.write (g : DualHashSetRef K V) (mf : V → V) :
    Option (DualHashSetRef K V) :=
  match mapGet g.set.entries g.key with
  | some v => some ⟨⟨mapInsert g.set.entries g.key (mf v)⟩, g.key⟩
  | none => none

/-- `Drop for DualHashSetRef`: re-read the element's key through `Deref`
(an unwrap), and relocate when it differs from the remembered key
(`self.set.0.remove(&self.key).unwrap()` then insert under the new key). -/
def DualHashSetRef.drop (key : V → K) (g : DualHashSetRef K V) :
    Option (DualHashSet K V) :=
  match mapGet g.set.entries g.key with
  | none => none
  | some v =>
    if key v = g.key then some g.set
    else
      match mapRemove g.set.entries g.key with
      | (m2, some value) => some ⟨mapInsert m2 (key value) value⟩
      | (_, none) => none

/-- `DualHashSet::modify`: `f` is modelled as `V → V × R` (the mutation of
the `&mut T` plus the closure's result). The outer `Option` is `none` when
the internal `remove(key).unwrap()` would panic. -/
def DualHashSet.modify {R : Type} (key : V → K) (s : DualHashSet K V)
    (k : K) (f : V → V × R) : Option (DualHashSet K V × Option R) :=
  match mapGet s.entries k with
  | none => some (s, none)
  | some v =>
    let fr := f v
    let m1 := mapInsert s.entries k fr.1
    if key fr.1 = k then some (⟨m1⟩, some fr.2)
    else
      match mapRemove m1 k with
      | (m2, some value) => some (⟨mapInsert m2 (key value) value⟩, some fr.2)
      | (_, none) => none

/-- The loop body of `DualHashSet::retain` over the snapshot of keys:
`predicate` is modelled as `V → V × Bool` (mutation plus keep/drop).
`none` models a panic of either internal `.unwrap()`. -/
def retainGo (key : V → K) (pred : V → V × Bool) :
    List K → List (K × V) → Option (List (K × V))
  | [], m => some m
  | k :: ks, m =>
    match mapGet m k with
    | none => none
    | some v =>
      let pb := pred v
      let m1 := mapInsert m k pb.1
      if pb.2 = false ∨ key pb.1 ≠ k then
        match mapRemove m1 k with
        | (m2, some value) =>
          retainGo key pred ks (if pb.2 then mapInsert m2 (key value) value else m2)
        | (_, none) => none
      else retainGo key pred ks m1

/-- `DualHashSet::retain`: snapshot `self.keys().cloned().collect()`
before mutating, then run the loop. -/
def DualHashSet.retain (key : V → K) (s : DualHashSet K V)
    (pred : V → V × Bool) : Option (DualHashSet K V) :=
  (retainGo key pred (DualHashSet.keysList key s) s.entries).map DualHashSet.mk

/-- `DualHashSet::modify_all`: `self.retain(|value| { f(value); true })`. -/
def DualHashSet.modify_all (key : V → K) (s : DualHashSet K V) (f : V → V) :
    Option (DualHashSet K V) :=
  DualHashSet.retain key s (fun v => (f v, true))

/-- Index coherence: every entry stored under index key `k` holds an
element whose own `key()` equals `k`. -/
def Coherent (key : V → K) (m : List (K × V)) : Prop :=
  ∀ p ∈ m, key p.2 = p.1

/-- Coherence everywhere except possibly at the slot a live guard points to. -/
def CoherentExcept (key : V → K) (m : List (K × V)) (k : K) : Prop :=
  ∀ p ∈ m, p.1 ≠ k → key p.2 = p.1

/-- Zero or more reads/writes through a live guard. -/
inductive GuardSteps : DualHashSetRef K V → DualHashSetRef K V → Prop
  | refl (g : DualHashSetRef K V) : GuardSteps g g
  | write (g g' g'' : DualHashSetRef K V) (mf : V → V) :
      DualHashSetRef.write g mf = some g' → GuardSteps g' g'' → GuardSteps g g''

/-- Containers reachable from `new`/`default` by sequences of completed
public operations (a guard acquisition counts only once it is released). -/
inductive Reachable (key : V → K) : DualHashSet K V → Prop
  | new : Reachable key DualHashSet.new
  | insert (s : DualHashSet K V) (v : V) :
      Reachable key s → Reachable key (DualHashSet.insert key s v).1
  | remove (s : DualHashSet K V) (k : K) :
      Reachable key s → Reachable key (DualHashSet.remove s k).1
  | clear (s : DualHashSet K V) :
      Reachable key s → Reachable key (DualHashSet.clear s)
  | modify {R : Type} (s : DualHashSet K V) (k : K) (f : V → V × R)
      (s' : DualHashSet K V) (r : Option R) :
      Reachable key s → DualHashSet.modify key s k f = some (s', r) →
      Reachable key s'
  | modifyAll (s : DualHashSet K V) (f : V → V) (s' : DualHashSet K V) :
      Reachable key s → DualHashSet.modify_all key s f = some s' →
      Reachable key s'
  | retain (s : DualHashSet K V) (pred : V → V × Bool) (s' : DualHashSet K V) :
      Reachable key s → DualHashSet.retain key s pred = some s' →
      Reachable key s'
  | guard (s : DualHashSet K V) (k : K) (g g' : DualHashSetRef K V)
      (s' : DualHashSet K V) :
      Reachable key s → DualHashSet.get_mut key s k = some g →
      GuardSteps g g' → DualHashSetRef.drop key g' = some s' →
      Reachable key s'
  | goiw (s : DualHashSet K V) (k : K) (f : K → V) (g' : DualHashSetRef K V)
      (s' : DualHashSet K V) :
      Reachable key s →
      GuardSteps (DualHashSet.get_or_insert_with key s k f) g' →
      DualHashSetRef.drop key g' = some s' →
      Reachable key s'

/-- Concrete instantiation used by witnesses: elements are `(key, value)`
pairs of naturals whose own key is the first component (the shape of the
`Test` struct in the crate's test module). -/
def keyN : Nat × Nat → Nat := Prod.fst

theorem mapGet_insert_self (m : List (K × V)) (k : K) (v : V) :
    mapGet (mapInsert m k v) k = some v := by
  induction m with
  | nil => simp [mapInsert, mapGet]
  | cons p ps ih =>
    by_cases h : p.1 = k
    · simp [mapInsert, h, mapGet]
    · simp [mapInsert, h, mapGet, ih]

theorem mapGet_insert_ne (m : List (K × V)) (k k' : K) (v : V) (h : k' ≠ k) :
    mapGet (mapInsert m k v) k' = mapGet m k' := by
  induction m with
  | nil => simp [mapInsert, mapGet, Ne.symm h]
  | cons p ps ih =>
    by_cases hp : p.1 = k
    · simp [mapInsert, mapGet, hp, Ne.symm h]
    · by_cases hp' : p.1 = k'
      · simp [mapInsert, hp, mapGet, hp', h, Ne.symm h]
      · simp [mapInsert, hp, mapGet, hp', ih]

theorem mapRemove_snd (m : List (K × V)) (k : K) :
    (mapRemove m k).2 = mapGet m k := by
  induction m with
  | nil => simp [mapRemove, mapGet]
  | cons p ps ih =>
    by_cases h : p.1 = k
    · simp [mapRemove, h, mapGet]
    · simp [mapRemove, h, mapGet, ih]

theorem mapGet_remove_ne (m : List (K × V)) (k k' : K) (h : k' ≠ k) :
    mapGet (mapRemove m k).1 k' = mapGet m k' := by
  induction m with
  | nil => simp [mapRemove]
  | cons p ps ih =>
    by_cases hp : p.1 = k
    · simp [mapRemove, hp, mapGet, Ne.symm h]
    · by_cases hp' : p.1 = k'
      · simp [mapRemove, hp, mapGet, hp', h, Ne.symm h]
      · simp [mapRemove, hp, mapGet, hp', ih]

theorem mapRemove_fst_sublist (m : List (K × V)) (k : K) :
    (mapRemove m k).1.Sublist m := by
  induction m with
  | nil => simp [mapRemove]
  | cons p ps ih =>
    by_cases h : p.1 = k
    · simp [mapRemove, h]
    · simpa [mapRemove, h] using List.Sublist.cons₂ p ih

theorem mem_keys_iff_isSome (m : List (K × V)) (k : K) :
    k ∈ m.map Prod.fst ↔ (mapGet m k).isSome := by
  induction m with
  | nil => simp [mapGet]
  | cons p ps ih =>
    by_cases h : p.1 = k
    · simp [mapGet, h]
    · have hne : ¬k = p.1 := fun hh => h hh.symm
      simp [mapGet, h, hne, ih]

theorem mapGet_mem (m : List (K × V)) (k : K) (v : V)
    (h : mapGet m k = some v) : (k, v) ∈ m := by
  induction m with
  | nil => simp [mapGet] at h
  | cons p ps ih =>
    by_cases hp : p.1 = k
    · rw [mapGet, if_pos hp] at h
      have h2 : p.2 = v := Option.some.inj h
      exact List.mem_cons.mpr (Or.inl (Prod.ext_iff.mpr ⟨hp.symm, h2.symm⟩))
    · rw [mapGet, if_neg hp] at h
      exact List.mem_cons_of_mem p (ih h)

theorem mem_mapGet (m : List (K × V)) (k : K) (v : V)
    (hm : (k, v) ∈ m) (hn : KeysNodup m) : mapGet m k = some v := by
  induction m with
  | nil => simp at hm
  | cons p ps ih =>
    rcases List.mem_cons.mp hm with h | h
    · subst h
      simp [mapGet]
    · have hk : k ∈ ps.map Prod.fst := List.mem_map.mpr ⟨(k, v), h, rfl⟩
      have hp : p.1 ≠ k := by
        intro hpk
        have := (List.nodup_cons.mp hn).1
        exact this (hpk ▸ hk)
      have hn' : KeysNodup ps := (List.nodup_cons.mp hn).2
      simp [mapGet, hp, ih h hn']

theorem mem_mapInsert (m : List (K × V)) (k : K) (v : V) (p : K × V)
    (h : p ∈ mapInsert m k v) : p = (k, v) ∨ p ∈ m := by
  induction m with
  | nil => simpa [mapInsert] using h
  | cons q qs ih =>
    by_cases hq : q.1 = k
    · simp only [mapInsert, hq, if_pos] at h
      rcases List.mem_cons.mp h with h | h
      · exact Or.inl h
      · exact Or.inr (List.mem_cons_of_mem q h)
    · simp only [mapInsert, hq, if_neg, not_false_iff] at h
      rcases List.mem_cons.mp h with h | h
      · exact Or.inr (h ▸ List.mem_cons_self q qs)
      · rcases ih h with h | h
        · exact Or.inl h
        · exact Or.inr (List.mem_cons_of_mem q h)

theorem keys_mapInsert_present (m : List (K × V)) (k : K) (v : V)
    (h : (mapGet m k).isSome) :
    (mapInsert m k v).map Prod.fst = m.map Prod.fst := by
  induction m with
  | nil => simp [mapGet] at h
  | cons p ps ih =>
    by_cases hp : p.1 = k
    · simp [mapInsert, hp]
    · simp only [mapGet, hp, if_neg, not_false_iff] at h
      simp [mapInsert, hp, ih h]

theorem mapInsert_absent (m : List (K × V)) (k : K) (v : V)
    (h : mapGet m k = none) : mapInsert m k v = m ++ [(k, v)] := by
  induction m with
  | nil => simp [mapInsert]
  | cons p ps ih =>
    by_cases hp : p.1 = k
    · simp [mapGet, hp] at h
    · simp only [mapGet, hp, if_neg, not_false_iff] at h
      simp [mapInsert, hp, ih h]

theorem keysNodup_mapInsert (m : List (K × V)) (k : K) (v : V)
    (hn : KeysNodup m) : KeysNodup (mapInsert m k v) := by
  by_cases h : (mapGet m k).isSome
  · unfold KeysNodup
    rw [keys_mapInsert_present m k v h]
    exact hn
  · rw [Option.not_isSome_iff_eq_none] at h
    unfold KeysNodup
    rw [mapInsert_absent m k v h]
    have hk : k ∉ m.map Prod.fst := by
      rw [mem_keys_iff_isSome, h]
      simp
    simp only [List.map_append, List.map_cons, List.map_nil]
    rw [List.nodup_append]
    refine ⟨hn, List.nodup_singleton k, ?_⟩
    intro a ha hb
    simp only [List.mem_singleton] at hb
    exact hk (hb ▸ ha)

theorem keysNodup_mapRemove (m : List (K × V)) (k : K)
    (hn : KeysNodup m) : KeysNodup (mapRemove m k).1 :=
  List.Nodup.sublist (List.Sublist.map Prod.fst (mapRemove_fst_sublist m k)) hn

theorem mapGet_remove_self (m : List (K × V)) (k : K) (hn : KeysNodup m) :
    mapGet (mapRemove m k).1 k = none := by
  induction m with
  | nil => simp [mapRemove, mapGet]
  | cons p ps ih =>
    by_cases h : p.1 = k
    · have hk : k ∉ ps.map Prod.fst := h ▸ (List.nodup_cons.mp hn).1
      simp only [mapRemove, h, if_pos]
      rw [← Option.not_isSome_iff_eq_none, ← mem_keys_iff_isSome]
      exact hk
    · simp [mapRemove, h, mapGet, ih (List.nodup_cons.mp hn).2]

theorem mapRemove_mapInsert_present (m : List (K × V)) (k : K) (v : V)
    (h : (mapGet m k).isSome) :
    mapRemove (mapInsert m k v) k = ((mapRemove m k).1, some v) := by
  induction m with
  | nil => simp [mapGet] at h
  | cons p ps ih =>
    by_cases hp : p.1 = k
    · simp [mapInsert, hp, mapRemove]
    · simp only [mapGet, hp, if_neg, not_false_iff] at h
      simp [mapInsert, hp, mapRemove, ih h]

/-- All entries except those filed under `k`. -/
def eraseKey (m : List (K × V)) (k : K) : List (K × V) :=
  m.filter (fun p => decide (p.1 ≠ k))

/-- All entries whose slot is outside the key list `ks`. -/
def keepOutside (m : List (K × V)) (ks : List K) : List (K × V) :=
  m.filter (fun p => decide (p.1 ∉ ks))

theorem eraseKey_nil (k : K) : eraseKey ([] : List (K × V)) k = [] := rfl

theorem eraseKey_cons (p : K × V) (ps : List (K × V)) (k : K) :
    eraseKey (p :: ps) k = if p.1 = k then eraseKey ps k else p :: eraseKey ps k := by
  by_cases h : p.1 = k <;> simp [eraseKey, List.filter_cons, h]

theorem eraseKey_eq_self (m : List (K × V)) (k : K)
    (hk : k ∉ m.map Prod.fst) : eraseKey m k = m := by
  apply List.filter_eq_self.mpr
  intro q hq
  simp only [decide_eq_true_eq]
  intro hqk
  exact hk (List.mem_map.mpr ⟨q, hq, hqk⟩)

theorem mapRemove_eq_eraseKey (m : List (K × V)) (k : K) (hn : KeysNodup m) :
    (mapRemove m k).1 = eraseKey m k := by
  induction m with
  | nil => simp [mapRemove, eraseKey_nil]
  | cons p ps ih =>
    by_cases h : p.1 = k
    · have hk : k ∉ ps.map Prod.fst := h ▸ (List.nodup_cons.mp hn).1
      simp [mapRemove, h, eraseKey_cons, eraseKey_eq_self ps k hk]
    · simp [mapRemove, h, eraseKey_cons, ih (List.nodup_cons.mp hn).2]

theorem length_mapInsert_present (m : List (K × V)) (k : K) (v : V)
    (h : (mapGet m k).isSome) : (mapInsert m k v).length = m.length := by
  have := keys_mapInsert_present m k v h
  have h1 : ((mapInsert m k v).map Prod.fst).length = (m.map Prod.fst).length := by
    rw [this]
  simpa using h1

theorem length_mapInsert_absent (m : List (K × V)) (k : K) (v : V)
    (h : mapGet m k = none) : (mapInsert m k v).length = m.length + 1 := by
  rw [mapInsert_absent m k v h]
  simp

theorem length_mapRemove_present (m : List (K × V)) (k : K)
    (h : (mapGet m k).isSome) : (mapRemove m k).1.length + 1 = m.length := by
  induction m with
  | nil => simp [mapGet] at h
  | cons p ps ih =>
    by_cases hp : p.1 = k
    · simp [mapRemove, hp]
    · simp only [mapGet, hp, if_neg, not_false_iff] at h
      simp [mapRemove, hp, ih h]

theorem mapInsert_perm (m : List (K × V)) (k : K) (v : V)
    (h : (mapGet m k).isSome) (hn : KeysNodup m) :
    (mapInsert m k v).Perm ((k, v) :: eraseKey m k) := by
  induction m with
  | nil => simp [mapGet] at h
  | cons p ps ih =>
    by_cases hp : p.1 = k
    · have hk : k ∉ ps.map Prod.fst := hp ▸ (List.nodup_cons.mp hn).1
      simp [mapInsert, hp, eraseKey_cons, eraseKey_eq_self ps k hk]
    · rw [mapGet, if_neg hp] at h
      have hperm := ih h (List.nodup_cons.mp hn).2
      have h1 : (p :: mapInsert ps k v).Perm
          (p :: ((k, v) :: eraseKey ps k)) :=
        List.Perm.cons p hperm
      have h2 : (p :: (k, v) :: eraseKey ps k).Perm
          ((k, v) :: p :: eraseKey ps k) :=
        List.Perm.swap (k, v) p _
      have h3 := h1.trans h2
      rw [mapInsert]
      rw [if_neg hp, eraseKey_cons, if_neg hp]
      exact h3

theorem countP_keys_eq_zero (m : List (K × V)) (k : K)
    (h : k ∉ m.map Prod.fst) :
    m.countP (fun p => decide (p.1 = k)) = 0 := by
  rw [List.countP_eq_zero]
  intro p hp
  simp only [decide_eq_true_eq]
  intro hpk
  exact h (List.mem_map.mpr ⟨p, hp, hpk⟩)

theorem countP_keys_mapInsert (m : List (K × V)) (k : K) (v : V)
    (hn : KeysNodup m) :
    (mapInsert m k v).countP (fun p => decide (p.1 = k)) = 1 := by
  induction m with
  | nil => simp [mapInsert]
  | cons p ps ih =>
    by_cases hp : p.1 = k
    · have hk : k ∉ ps.map Prod.fst := hp ▸ (List.nodup_cons.mp hn).1
      simp [mapInsert, hp, List.countP_cons, countP_keys_eq_zero ps k hk]
    · simp [mapInsert, hp, List.countP_cons, ih (List.nodup_cons.mp hn).2]

theorem mem_eraseKey (m : List (K × V)) (k : K) (p : K × V) :
    p ∈ eraseKey m k ↔ p ∈ m ∧ p.1 ≠ k := by
  simp [eraseKey, List.mem_filter]

omit [DecidableEq K] in
theorem coherent_of_sublist (key : V → K) (m m' : List (K × V))
    (h : m'.Sublist m) (hc : Coherent key m) : Coherent key m' :=
  fun p hp => hc p (h.subset hp)

theorem coherent_mapInsert_own (key : V → K) (m : List (K × V)) (w : V)
    (hc : Coherent key m) : Coherent key (mapInsert m (key w) w) := by
  intro p hp
  rcases mem_mapInsert m (key w) w p hp with h | h
  · rw [h]
  · exact hc p h

omit [DecidableEq K] in
theorem coherentExcept_of_coherent (key : V → K) (m : List (K × V)) (k : K)
    (hc : Coherent key m) : CoherentExcept key m k :=
  fun p hp _ => hc p hp

theorem coherentExcept_mapInsert (key : V → K) (m : List (K × V)) (k : K)
    (v : V) (hc : CoherentExcept key m k) :
    CoherentExcept key (mapInsert m k v) k := by
  intro p hp hne
  rcases mem_mapInsert m k v p hp with h | h
  · exact absurd (by rw [h]) hne
  · exact hc p h hne

theorem coherent_mapRemove_of_except (key : V → K) (m : List (K × V)) (k : K)
    (hn : KeysNodup m) (hce : CoherentExcept key m k) :
    Coherent key (mapRemove m k).1 := by
  rw [mapRemove_eq_eraseKey m k hn]
  intro p hp
  have h := (mem_eraseKey m k p).mp hp
  exact hce p h.1 h.2

theorem coherent_of_except_slot (key : V → K) (m : List (K × V)) (k : K)
    (v : V) (hn : KeysNodup m) (hce : CoherentExcept key m k)
    (hg : mapGet m k = some v) (hk : key v = k) : Coherent key m := by
  intro p hp
  by_cases hpk : p.1 = k
  · have : mapGet m p.1 = some p.2 := mem_mapGet m p.1 p.2 hp hn
    rw [hpk, hg] at this
    have hv : v = p.2 := Option.some.inj this
    rw [← hv, hk, hpk]
  · exact hce p hp hpk

theorem retainGo_nil (key : V → K) (pred : V → V × Bool) (m : List (K × V)) :
    retainGo key pred [] m = some m := rfl

theorem retainGo_cons_none (key : V → K) (pred : V → V × Bool) (k : K)
    (ks : List K) (m : List (K × V)) (hg : mapGet m k = none) :
    retainGo key pred (k :: ks) m = none := by
  rw [retainGo, hg]

theorem retainGo_cons_eq (key : V → K) (pred : V → V × Bool) (k : K)
    (ks : List K) (m : List (K × V)) (v : V) (hg : mapGet m k = some v) :
    retainGo key pred (k :: ks) m =
      if (pred v).2 = false ∨ key (pred v).1 ≠ k then
        retainGo key pred ks
          (if (pred v).2 then
            mapInsert (mapRemove m k).1 (key (pred v).1) (pred v).1
          else (mapRemove m k).1)
      else retainGo key pred ks (mapInsert m k (pred v).1) := by
  rw [retainGo, hg]
  dsimp only
  by_cases hcond : (pred v).2 = false ∨ key (pred v).1 ≠ k
  · rw [if_pos hcond, if_pos hcond,
      mapRemove_mapInsert_present m k (pred v).1 (by rw [hg]; rfl)]
  · rw [if_neg hcond, if_neg hcond]

theorem retainGo_coherent (key : V → K) (pred : V → V × Bool) :
    ∀ (ks : List K) (m m' : List (K × V)),
      retainGo key pred ks m = some m' → KeysNodup m → Coherent key m →
      KeysNodup m' ∧ Coherent key m' := by
  intro ks
  induction ks with
  | nil =>
    intro m m' h hn hc
    rw [retainGo_nil] at h
    have := Option.some.inj h
    exact this ▸ ⟨hn, hc⟩
  | cons k ks ih =>
    intro m m' h hn hc
    cases hg : mapGet m k with
    | none => rw [retainGo_cons_none key pred k ks m hg] at h; cases h
    | some v =>
      rw [retainGo_cons_eq key pred k ks m v hg] at h
      by_cases hcond : (pred v).2 = false ∨ key (pred v).1 ≠ k
      · rw [if_pos hcond] at h
        by_cases hkeep : (pred v).2
        · rw [if_pos hkeep] at h
          refine ih _ _ h (keysNodup_mapInsert _ _ _ (keysNodup_mapRemove m k hn)) ?_
          exact coherent_mapInsert_own key _ _
            (coherent_of_sublist key m _ (mapRemove_fst_sublist m k) hc)
        · rw [if_neg hkeep] at h
          exact ih _ _ h (keysNodup_mapRemove m k hn)
            (coherent_of_sublist key m _ (mapRemove_fst_sublist m k) hc)
      · rw [if_neg hcond] at h
        have hk : key (pred v).1 = k := not_ne_iff.mp (not_or.mp hcond).2
        refine ih _ _ h (keysNodup_mapInsert _ _ _ hn) ?_
        rw [← hk]
        exact coherent_mapInsert_own key m (pred v).1 hc

theorem modify_absent {R : Type} (key : V → K) (s : DualHashSet K V) (k : K)
    (f : V → V × R) (hg : mapGet s.entries k = none) :
    DualHashSet.modify key s k f = some (s, none) := by
  unfold DualHashSet.modify
  rw [hg]

theorem modify_present {R : Type} (key : V → K) (s : DualHashSet K V) (k : K)
    (f : V → V × R) (v : V) (hg : mapGet s.entries k = some v) :
    DualHashSet.modify key s k f =
      if key (f v).1 = k then
        some (⟨mapInsert s.entries k (f v).1⟩, some (f v).2)
      else
        some (⟨mapInsert (mapRemove s.entries k).1 (key (f v).1) (f v).1⟩,
          some (f v).2) := by
  unfold DualHashSet.modify
  rw [hg]
  dsimp only
  by_cases hc : key (f v).1 = k
  · rw [if_pos hc, if_pos hc]
  · rw [if_neg hc, if_neg hc,
      mapRemove_mapInsert_present s.entries k (f v).1 (by rw [hg]; rfl)]

theorem modify_coherent {R : Type} (key : V → K) (s : DualHashSet K V) (k : K)
    (f : V → V × R) (s' : DualHashSet K V) (r : Option R)
    (h : DualHashSet.modify key s k f = some (s', r))
    (hn : KeysNodup s.entries) (hc : Coherent key s.entries) :
    KeysNodup s'.entries ∧ Coherent key s'.entries := by
  cases hg : mapGet s.entries k with
  | none =>
    rw [modify_absent key s k f hg] at h
    have h1 := Option.some.inj h
    injection h1 with h2 _
    exact h2 ▸ ⟨hn, hc⟩
  | some v =>
    rw [modify_present key s k f v hg] at h
    by_cases hck : key (f v).1 = k
    · rw [if_pos hck] at h
      have h1 := Option.some.inj h
      injection h1 with h2 _
      rw [← h2]
      refine ⟨keysNodup_mapInsert _ _ _ hn, ?_⟩
      rw [← hck]
      exact coherent_mapInsert_own key s.entries (f v).1 hc
    · rw [if_neg hck] at h
      have h1 := Option.some.inj h
      injection h1 with h2 _
      rw [← h2]
      refine ⟨keysNodup_mapInsert _ _ _ (keysNodup_mapRemove _ _ hn), ?_⟩
      exact coherent_mapInsert_own key _ _
        (coherent_of_sublist key s.entries _ (mapRemove_fst_sublist s.entries k) hc)

theorem write_some (g : DualHashSetRef K V) (mf : V → V) (v : V)
    (h : mapGet g.set.entries g.key = some v) :
    DualHashSetRef.write g mf =
      some ⟨⟨mapInsert g.set.entries g.key (mf v)⟩, g.key⟩ := by
  unfold DualHashSetRef.write
  rw [h]

theorem write_none (g : DualHashSetRef K V) (mf : V → V)
    (h : mapGet g.set.entries g.key = none) :
    DualHashSetRef.write g mf = none := by
  unfold DualHashSetRef.write
  rw [h]

theorem drop_none (key : V → K) (g : DualHashSetRef K V)
    (h : mapGet g.set.entries g.key = none) :
    DualHashSetRef.drop key g = none := by
  unfold DualHashSetRef.drop
  rw [h]

theorem drop_same (key : V → K) (g : DualHashSetRef K V) (v : V)
    (hg : mapGet g.set.entries g.key = some v) (hk : key v = g.key) :
    DualHashSetRef.drop key g = some g.set := by
  unfold DualHashSetRef.drop
  rw [hg]
  dsimp only
  rw [if_pos hk]

theorem drop_reloc (key : V → K) (g : DualHashSetRef K V) (v : V)
    (hg : mapGet g.set.entries g.key = some v) (hk : key v ≠ g.key) :
    DualHashSetRef.drop key g =
      some ⟨mapInsert (mapRemove g.set.entries g.key).1 (key v) v⟩ := by
  unfold DualHashSetRef.drop
  rw [hg]
  dsimp only
  rw [if_neg hk]
  have h2 : mapRemove g.set.entries g.key =
      ((mapRemove g.set.entries g.key).1, some v) := by
    have h3 := mapRemove_snd g.set.entries g.key
    rw [hg] at h3
    rw [← h3]
  rw [h2]

theorem get_mut_none (key : V → K) (s : DualHashSet K V) (k : K)
    (h : DualHashSet.get s k = none) : DualHashSet.get_mut key s k = none := by
  unfold DualHashSet.get_mut
  rw [h]

theorem get_mut_some (key : V → K) (s : DualHashSet K V) (k : K) (v : V)
    (h : DualHashSet.get s k = some v) :
    DualHashSet.get_mut key s k = some ⟨s, key v⟩ := by
  unfold DualHashSet.get_mut
  rw [h]

theorem drop_coherent (key : V → K) (g : DualHashSetRef K V)
    (s' : DualHashSet K V) (h : DualHashSetRef.drop key g = some s')
    (hn : KeysNodup g.set.entries)
    (hce : CoherentExcept key g.set.entries g.key) :
    KeysNodup s'.entries ∧ Coherent key s'.entries := by
  cases hg : mapGet g.set.entries g.key with
  | none => rw [drop_none key g hg] at h; cases h
  | some v =>
    by_cases hk : key v = g.key
    · rw [drop_same key g v hg hk] at h
      have h1 := Option.some.inj h
      rw [← h1]
      exact ⟨hn, coherent_of_except_slot key g.set.entries g.key v hn hce hg hk⟩
    · rw [drop_reloc key g v hg hk] at h
      have h1 := Option.some.inj h
      rw [← h1]
      refine ⟨keysNodup_mapInsert _ _ _ (keysNodup_mapRemove _ _ hn), ?_⟩
      exact coherent_mapInsert_own key _ _
        (coherent_mapRemove_of_except key g.set.entries g.key hn hce)

theorem guardSteps_stuck (g g' : DualHashSetRef K V)
    (h : mapGet g.set.entries g.key = none) (hs : GuardSteps g g') : g' = g := by
  cases hs with
  | refl => rfl
  | write g g1 g2 mf hw _ => rw [write_none g mf h] at hw; cases hw

theorem guardSteps_inv (key : V → K) :
    ∀ {g g' : DualHashSetRef K V}, GuardSteps g g' →
    KeysNodup g.set.entries → CoherentExcept key g.set.entries g.key →
    (mapGet g.set.entries g.key).isSome →
    g'.key = g.key ∧ KeysNodup g'.set.entries ∧
      CoherentExcept key g'.set.entries g'.key ∧
      (mapGet g'.set.entries g'.key).isSome := by
  intro g g' hs
  induction hs with
  | refl g => intro hn hce hp; exact ⟨rfl, hn, hce, hp⟩
  | write g g1 g2 mf hw _hs ih =>
    intro hn hce hp
    obtain ⟨v, hv⟩ := Option.isSome_iff_exists.mp hp
    have hg1 : g1 = ⟨⟨mapInsert g.set.entries g.key (mf v)⟩, g.key⟩ := by
      have hw2 := write_some g mf v hv
      rw [hw] at hw2
      exact Option.some.inj hw2
    subst hg1
    have hn1 : KeysNodup (mapInsert g.set.entries g.key (mf v)) :=
      keysNodup_mapInsert _ _ _ hn
    have hce1 := coherentExcept_mapInsert key g.set.entries g.key (mf v) hce
    have hp1 : (mapGet (mapInsert g.set.entries g.key (mf v)) g.key).isSome := by
      rw [mapGet_insert_self]; rfl
    have hres := ih hn1 hce1 hp1
    exact ⟨hres.1, hres.2⟩

theorem reachable_inv (key : V → K) :
    ∀ (s : DualHashSet K V), Reachable key s →
    KeysNodup s.entries ∧ Coherent key s.entries := by
  intro s h
  induction h with
  | new => exact ⟨List.nodup_nil, fun p hp => absurd hp (List.not_mem_nil p)⟩
  | insert s v _ ih =>
    exact ⟨keysNodup_mapInsert _ _ _ ih.1, coherent_mapInsert_own key _ _ ih.2⟩
  | remove s k _ ih =>
    exact ⟨keysNodup_mapRemove _ _ ih.1,
      coherent_of_sublist key s.entries _ (mapRemove_fst_sublist s.entries k) ih.2⟩
  | clear s _ _ =>
    exact ⟨List.nodup_nil, fun p hp => absurd hp (List.not_mem_nil p)⟩
  | modify s k f s' r _ hm ih => exact modify_coherent key s k f s' r hm ih.1 ih.2
  | modifyAll s f s' _ hm ih =>
    unfold DualHashSet.modify_all DualHashSet.retain at hm
    obtain ⟨m', hm', hmk⟩ := Option.map_eq_some'.mp hm
    have := retainGo_coherent key _ _ s.entries m' hm' ih.1 ih.2
    rw [← hmk]
    exact this
  | retain s pred s' _ hr ih =>
    unfold DualHashSet.retain at hr
    obtain ⟨m', hm', hmk⟩ := Option.map_eq_some'.mp hr
    have := retainGo_coherent key _ _ s.entries m' hm' ih.1 ih.2
    rw [← hmk]
    exact this
  | guard s k g g' s' _ hgm hs hd ih =>
    cases hv : DualHashSet.get s k with
    | none => rw [get_mut_none key s k hv] at hgm; cases hgm
    | some v =>
      rw [get_mut_some key s k v hv] at hgm
      have hg : g = ⟨s, key v⟩ := (Option.some.inj hgm).symm
      subst hg
      have hvk : key v = k := by
        have hmem := mapGet_mem s.entries k v hv
        exact ih.2 (k, v) hmem
      have hp : (mapGet s.entries (key v)).isSome := by
        have hv' : mapGet s.entries k = some v := hv
        rw [hvk, hv']; rfl
      have hinv := guardSteps_inv key hs ih.1
        (coherentExcept_of_coherent key s.entries (key v) ih.2) hp
      exact drop_coherent key g' s' hd hinv.2.1 hinv.2.2.1
  | goiw s k f g' s' _ hs hd ih =>
    by_cases hc : DualHashSet.contains s k
    · have hg0 : DualHashSet.get_or_insert_with key s k f = ⟨s, k⟩ := by
        unfold DualHashSet.get_or_insert_with
        rw [if_pos hc]
      rw [hg0] at hs
      have hp : (mapGet s.entries k).isSome := hc
      have hinv := guardSteps_inv key hs ih.1
        (coherentExcept_of_coherent key s.entries k ih.2) hp
      exact drop_coherent key g' s' hd hinv.2.1 hinv.2.2.1
    · have hg0 : DualHashSet.get_or_insert_with key s k f =
          ⟨⟨mapInsert s.entries (key (f k)) (f k)⟩, k⟩ := by
        unfold DualHashSet.get_or_insert_with
        rw [if_neg hc]
        rfl
      rw [hg0] at hs
      have hn1 : KeysNodup (mapInsert s.entries (key (f k)) (f k)) :=
        keysNodup_mapInsert _ _ _ ih.1
      have hc1 : Coherent key (mapInsert s.entries (key (f k)) (f k)) :=
        coherent_mapInsert_own key s.entries (f k) ih.2
      by_cases hp : (mapGet (mapInsert s.entries (key (f k)) (f k)) k).isSome
      · have hinv := guardSteps_inv key hs hn1
          (coherentExcept_of_coherent key _ k hc1) hp
        exact drop_coherent key g' s' hd hinv.2.1 hinv.2.2.1
      · rw [Option.not_isSome_iff_eq_none] at hp
        have hstuck := guardSteps_stuck _ g' hp hs
        subst hstuck
        unfold DualHashSetRef.drop at hd
        rw [hp] at hd
        cases hd

theorem retainGo_isSome (key : V → K) (pred : V → V × Bool) :
    ∀ (ks : List K) (m : List (K × V)), ks.Nodup →
      (∀ k ∈ ks, (mapGet m k).isSome) →
      (retainGo key pred ks m).isSome := by
  intro ks
  induction ks with
  | nil => intro m _ _; rw [retainGo_nil]; rfl
  | cons k ks ih =>
    intro m hnd hpres
    obtain ⟨v, hv⟩ := Option.isSome_iff_exists.mp (hpres k (List.mem_cons_self k ks))
    rw [retainGo_cons_eq key pred k ks m v hv]
    have hknotin : k ∉ ks := (List.nodup_cons.mp hnd).1
    have hnd' : ks.Nodup := (List.nodup_cons.mp hnd).2
    by_cases hcond : (pred v).2 = false ∨ key (pred v).1 ≠ k
    · rw [if_pos hcond]
      by_cases hkeep : (pred v).2
      · rw [if_pos hkeep]
        apply ih _ hnd'
        intro k2 hk2
        have hne : k2 ≠ k := fun hh => hknotin (hh ▸ hk2)
        by_cases hnew : k2 = key (pred v).1
        · rw [hnew, mapGet_insert_self]; rfl
        · rw [mapGet_insert_ne _ _ _ _ hnew, mapGet_remove_ne _ _ _ hne]
          exact hpres k2 (List.mem_cons_of_mem k hk2)
      · rw [if_neg hkeep]
        apply ih _ hnd'
        intro k2 hk2
        have hne : k2 ≠ k := fun hh => hknotin (hh ▸ hk2)
        rw [mapGet_remove_ne _ _ _ hne]
        exact hpres k2 (List.mem_cons_of_mem k hk2)
    · rw [if_neg hcond]
      apply ih _ hnd'
      intro k2 hk2
      have hne : k2 ≠ k := fun hh => hknotin (hh ▸ hk2)
      rw [mapGet_insert_ne _ _ _ _ hne]
      exact hpres k2 (List.mem_cons_of_mem k hk2)

omit [DecidableEq K] in
theorem keysList_eq_keys (key : V → K) (s : DualHashSet K V)
    (hc : Coherent key s.entries) :
    DualHashSet.keysList key s = s.entries.map Prod.fst := by
  unfold DualHashSet.keysList
  exact List.map_congr_left (fun p hp => hc p hp)

/-- The image of one original entry under a `retain` predicate: `none`
when dropped, otherwise the mutated element filed under its new key. -/
def keptImage (key : V → K) (pred : V → V × Bool) (p : K × V) :
    Option (K × V) :=
  if (pred p.2).2 then some (key (pred p.2).1, (pred p.2).1) else none

/-- The images produced by visiting the snapshot keys `ks` against map `m`. -/
def goImage (key : V → K) (pred : V → V × Bool) (m : List (K × V))
    (ks : List K) : List (K × V) :=
  ks.filterMap (fun k => (mapGet m k).bind
    (fun v => if (pred v).2 then some (key (pred v).1, (pred v).1) else none))

theorem keepOutside_nil (m : List (K × V)) : keepOutside m [] = m := by
  apply List.filter_eq_self.mpr
  intro p _
  simp

theorem keepOutside_cons_notMem (p : K × V) (ps : List (K × V)) (ks : List K)
    (h : p.1 ∉ ks) : keepOutside (p :: ps) ks = p :: keepOutside ps ks := by
  simp [keepOutside, List.filter_cons, h]

theorem keepOutside_append_single (m : List (K × V)) (k : K) (w : V)
    (ks : List K) (h : k ∉ ks) :
    keepOutside (m ++ [(k, w)]) ks = keepOutside m ks ++ [(k, w)] := by
  unfold keepOutside
  rw [List.filter_append]
  simp [List.filter_cons, h]

theorem keepOutside_eraseKey (m : List (K × V)) (k : K) (ks : List K) :
    keepOutside (eraseKey m k) ks = keepOutside m (k :: ks) := by
  induction m with
  | nil => rfl
  | cons p ps ih =>
    rw [eraseKey_cons]
    by_cases hk : p.1 = k
    · rw [if_pos hk, ih]
      have hmem : p.1 ∈ k :: ks := hk ▸ List.mem_cons_self k ks
      unfold keepOutside
      rw [List.filter_cons, if_neg (by simp [hmem])]
    · rw [if_neg hk]
      by_cases hks : p.1 ∈ ks
      · have hmem : decide (p.1 ∉ ks) = false := by simp [hks]
        have hmem2 : decide (p.1 ∉ k :: ks) = false := by
          simp [List.mem_cons.mpr (Or.inr hks)]
        unfold keepOutside
        rw [List.filter_cons, List.filter_cons, if_neg (by simp [hks]),
          if_neg (by simp [List.mem_cons.mpr (Or.inr hks)])]
        exact ih
      · have hnotin : p.1 ∉ k :: ks := by
          intro hc
          rcases List.mem_cons.mp hc with hc | hc
          · exact hk hc
          · exact hks hc
        rw [keepOutside_cons_notMem p (eraseKey ps k) ks hks,
          keepOutside_cons_notMem p ps (k :: ks) hnotin, ih]

theorem keepOutside_eq_nil (m : List (K × V)) (ks : List K)
    (h : ∀ p ∈ m, p.1 ∈ ks) : keepOutside m ks = [] := by
  unfold keepOutside
  rw [List.filter_eq_nil_iff]
  intro p hp
  simp [h p hp]

theorem keepOutside_mapInsert_present (m : List (K × V)) (k : K) (v : V)
    (ks : List K) (hsome : (mapGet m k).isSome) (hn : KeysNodup m)
    (hk : k ∉ ks) :
    (keepOutside (mapInsert m k v) ks).Perm
      ((k, v) :: keepOutside m (k :: ks)) := by
  have h1 : (keepOutside (mapInsert m k v) ks).Perm
      (keepOutside ((k, v) :: eraseKey m k) ks) :=
    (mapInsert_perm m k v hsome hn).filter _
  rw [keepOutside_cons_notMem (k, v) (eraseKey m k) ks hk,
    keepOutside_eraseKey m k ks] at h1
  exact h1

theorem goImage_congr (key : V → K) (pred : V → V × Bool)
    (m m' : List (K × V)) (ks : List K)
    (h : ∀ k ∈ ks, mapGet m k = mapGet m' k) :
    goImage key pred m ks = goImage key pred m' ks := by
  unfold goImage
  apply List.filterMap_congr
  intro k hk
  rw [h k hk]

theorem goImage_cons_none (key : V → K) (pred : V → V × Bool)
    (m : List (K × V)) (k : K) (ks : List K) (hv : mapGet m k = none) :
    goImage key pred m (k :: ks) = goImage key pred m ks := by
  unfold goImage
  rw [List.filterMap_cons, hv]
  rfl

theorem goImage_cons_kept (key : V → K) (pred : V → V × Bool)
    (m : List (K × V)) (k : K) (ks : List K) (v : V)
    (hv : mapGet m k = some v) (hkeep : (pred v).2 = true) :
    goImage key pred m (k :: ks) =
      (key (pred v).1, (pred v).1) :: goImage key pred m ks := by
  unfold goImage
  rw [List.filterMap_cons, hv, Option.some_bind, if_pos hkeep]

theorem goImage_cons_dropped (key : V → K) (pred : V → V × Bool)
    (m : List (K × V)) (k : K) (ks : List K) (v : V)
    (hv : mapGet m k = some v) (hkeep : (pred v).2 = false) :
    goImage key pred m (k :: ks) = goImage key pred m ks := by
  unfold goImage
  rw [List.filterMap_cons, hv, Option.some_bind,
    if_neg (by rw [hkeep]; exact Bool.false_ne_true)]

theorem goImage_keys (key : V → K) (pred : V → V × Bool) :
    ∀ (m : List (K × V)), KeysNodup m →
    goImage key pred m (m.map Prod.fst) = m.filterMap (keptImage key pred) := by
  intro m
  induction m with
  | nil => intro _; rfl
  | cons p ps ih =>
    intro hn
    have hp1 : p.1 ∉ ps.map Prod.fst := (List.nodup_cons.mp hn).1
    have hps : ∀ k ∈ ps.map Prod.fst, mapGet (p :: ps) k = mapGet ps k := by
      intro k hk
      have hne : p.1 ≠ k := fun hc => hp1 (hc ▸ hk)
      rw [mapGet, if_neg hne]
    have hhead : mapGet (p :: ps) p.1 = some p.2 := by
      rw [mapGet, if_pos rfl]
    have htail : goImage key pred (p :: ps) (ps.map Prod.fst) =
        goImage key pred ps (ps.map Prod.fst) := goImage_congr _ _ _ _ _ hps
    show goImage key pred (p :: ps) (p.1 :: ps.map Prod.fst) = _
    rw [List.filterMap_cons]
    by_cases hkeep : (pred p.2).2
    · rw [goImage_cons_kept key pred _ p.1 _ p.2 hhead hkeep, htail,
        ih (List.nodup_cons.mp hn).2]
      unfold keptImage
      rw [if_pos hkeep]
    · have hkeep' : (pred p.2).2 = false := Bool.eq_false_iff.mpr hkeep
      rw [goImage_cons_dropped key pred _ p.1 _ p.2 hhead hkeep', htail,
        ih (List.nodup_cons.mp hn).2]
      unfold keptImage
      rw [if_neg hkeep]

theorem keys_mapRemove_subset (m : List (K × V)) (k k' : K)
    (h : k' ∈ (mapRemove m k).1.map Prod.fst) : k' ∈ m.map Prod.fst :=
  (List.Sublist.map Prod.fst (mapRemove_fst_sublist m k)).subset h

/-- Main per-run specification of the `retain` loop, under the
no-collision side conditions: every kept element either keeps its key or
moves it to a slot that is fresh (absent from the map) and claimed by no
other kept element. -/
theorem retainGo_perm (key : V → K) (pred : V → V × Bool) :
    ∀ (ks : List K) (m : List (K × V)),
      KeysNodup m → ks.Nodup →
      (∀ k ∈ ks, (mapGet m k).isSome) →
      (∀ k ∈ ks, ∀ v, mapGet m k = some v → (pred v).2 = true →
        key (pred v).1 = k ∨
        (key (pred v).1 ∉ m.map Prod.fst ∧
          ∀ k2 ∈ ks, k2 ≠ k → ∀ w, mapGet m k2 = some w → (pred w).2 = true →
            key (pred w).1 ≠ key (pred v).1)) →
      ∃ m', retainGo key pred ks m = some m' ∧
        m'.Perm (keepOutside m ks ++ goImage key pred m ks) := by
  intro ks
  induction ks with
  | nil =>
    intro m _ _ _ _
    refine ⟨m, retainGo_nil key pred m, ?_⟩
    rw [keepOutside_nil]
    simp [goImage]
  | cons k ks ih =>
    intro m hn hnd hpres hfresh
    obtain ⟨v, hv⟩ :=
      Option.isSome_iff_exists.mp (hpres k (List.mem_cons_self k ks))
    have hvsome : (mapGet m k).isSome := by rw [hv]; rfl
    have hknotin : k ∉ ks := (List.nodup_cons.mp hnd).1
    have hnd' : ks.Nodup := (List.nodup_cons.mp hnd).2
    have hksmem : ∀ k2 ∈ ks, k2 ∈ m.map Prod.fst := fun k2 hk2 =>
      (mem_keys_iff_isSome m k2).mpr (hpres k2 (List.mem_cons_of_mem k hk2))
    by_cases hkeep : (pred v).2 = true
    · by_cases hck : key (pred v).1 = k
      · -- kept in place
        have hcond : ¬((pred v).2 = false ∨ key (pred v).1 ≠ k) := by
          rw [not_or]
          exact ⟨by simp [hkeep], not_ne_iff.mpr hck⟩
        have hn1 : KeysNodup (mapInsert m k (pred v).1) :=
          keysNodup_mapInsert _ _ _ hn
        have hget1 : ∀ k2 ∈ ks,
            mapGet (mapInsert m k (pred v).1) k2 = mapGet m k2 := fun k2 hk2 =>
          mapGet_insert_ne m k k2 _ (fun hc => hknotin (hc ▸ hk2))
        have hpres1 : ∀ k2 ∈ ks,
            (mapGet (mapInsert m k (pred v).1) k2).isSome := by
          intro k2 hk2
          rw [hget1 k2 hk2]
          exact hpres k2 (List.mem_cons_of_mem k hk2)
        have hkeys1 : (mapInsert m k (pred v).1).map Prod.fst = m.map Prod.fst :=
          keys_mapInsert_present m k _ hvsome
        have hfresh1 : ∀ k2 ∈ ks, ∀ v2,
            mapGet (mapInsert m k (pred v).1) k2 = some v2 → (pred v2).2 = true →
            key (pred v2).1 = k2 ∨
            (key (pred v2).1 ∉ (mapInsert m k (pred v).1).map Prod.fst ∧
              ∀ k3 ∈ ks, k3 ≠ k2 → ∀ w,
                mapGet (mapInsert m k (pred v).1) k3 = some w →
                (pred w).2 = true → key (pred w).1 ≠ key (pred v2).1) := by
          intro k2 hk2 v2 hv2 hkeep2
          rw [hget1 k2 hk2] at hv2
          rcases hfresh k2 (List.mem_cons_of_mem k hk2) v2 hv2 hkeep2 with h | ⟨ha, hb⟩
          · exact Or.inl h
          · refine Or.inr ⟨by rw [hkeys1]; exact ha, ?_⟩
            intro k3 hk3 hne3 w hw hkw
            rw [hget1 k3 hk3] at hw
            exact hb k3 (List.mem_cons_of_mem k hk3) hne3 w hw hkw
        obtain ⟨m', hrun, hperm⟩ := ih (mapInsert m k (pred v).1) hn1 hnd' hpres1 hfresh1
        refine ⟨m', ?_, ?_⟩
        · rw [retainGo_cons_eq key pred k ks m v hv, if_neg hcond]
          exact hrun
        · have hgi : goImage key pred (mapInsert m k (pred v).1) ks =
              goImage key pred m ks := goImage_congr _ _ _ _ _ hget1
          have hko := keepOutside_mapInsert_present m k (pred v).1 ks hvsome hn hknotin
          have h2 : m'.Perm (((k, (pred v).1) :: keepOutside m (k :: ks)) ++
              goImage key pred m ks) := by
            rw [hgi] at hperm
            exact hperm.trans (hko.append (List.Perm.refl _))
          rw [goImage_cons_kept key pred m k ks v hv hkeep, hck]
          exact h2.trans List.perm_middle.symm
      · -- kept, key changed: fresh relocation
        have hcond : (pred v).2 = false ∨ key (pred v).1 ≠ k := Or.inr hck
        rcases hfresh k (List.mem_cons_self k ks) v hv hkeep with h | ⟨hfk, hpair⟩
        · exact absurd h hck
        have hrm : (mapRemove m k).1 = eraseKey m k := mapRemove_eq_eraseKey m k hn
        have hr_nodup : KeysNodup (mapRemove m k).1 := keysNodup_mapRemove m k hn
        have hfk_r : mapGet (mapRemove m k).1 (key (pred v).1) = none := by
          rw [← Option.not_isSome_iff_eq_none, ← mem_keys_iff_isSome]
          exact fun hc => hfk (keys_mapRemove_subset m k _ hc)
        have hmN : mapInsert (mapRemove m k).1 (key (pred v).1) (pred v).1 =
            (mapRemove m k).1 ++ [(key (pred v).1, (pred v).1)] :=
          mapInsert_absent _ _ _ hfk_r
        have hnN : KeysNodup (mapInsert (mapRemove m k).1 (key (pred v).1) (pred v).1) :=
          keysNodup_mapInsert _ _ _ hr_nodup
        have hgetN : ∀ k2 ∈ ks,
            mapGet (mapInsert (mapRemove m k).1 (key (pred v).1) (pred v).1) k2 =
            mapGet m k2 := by
          intro k2 hk2
          have hne : k2 ≠ k := fun hc => hknotin (hc ▸ hk2)
          have hnek' : k2 ≠ key (pred v).1 := by
            intro hc
            exact hfk (hc ▸ hksmem k2 hk2)
          rw [mapGet_insert_ne _ _ _ _ hnek', mapGet_remove_ne _ _ _ hne]
        have hpresN : ∀ k2 ∈ ks,
            (mapGet (mapInsert (mapRemove m k).1 (key (pred v).1) (pred v).1) k2).isSome := by
          intro k2 hk2
          rw [hgetN k2 hk2]
          exact hpres k2 (List.mem_cons_of_mem k hk2)
        have hkeysN : (mapInsert (mapRemove m k).1 (key (pred v).1) (pred v).1).map Prod.fst =
            (mapRemove m k).1.map Prod.fst ++ [key (pred v).1] := by
          rw [hmN]
          simp
        have hfreshN : ∀ k2 ∈ ks, ∀ v2,
            mapGet (mapInsert (mapRemove m k).1 (key (pred v).1) (pred v).1) k2 = some v2 →
            (pred v2).2 = true →
            key (pred v2).1 = k2 ∨
            (key (pred v2).1 ∉ (mapInsert (mapRemove m k).1 (key (pred v).1) (pred v).1).map Prod.fst ∧
              ∀ k3 ∈ ks, k3 ≠ k2 → ∀ w,
                mapGet (mapInsert (mapRemove m k).1 (key (pred v).1) (pred v).1) k3 = some w →
                (pred w).2 = true → key (pred w).1 ≠ key (pred v2).1) := by
          intro k2 hk2 v2 hv2 hkeep2
          rw [hgetN k2 hk2] at hv2
          rcases hfresh k2 (List.mem_cons_of_mem k hk2) v2 hv2 hkeep2 with h | ⟨ha, hb⟩
          · exact Or.inl h
          · refine Or.inr ⟨?_, ?_⟩
            · rw [hkeysN]
              intro hc
              rcases List.mem_append.mp hc with hc | hc
              · exact ha (keys_mapRemove_subset m k _ hc)
              · have hceq : key (pred v2).1 = key (pred v).1 := by
                  simpa using hc
                exact hpair k2 (List.mem_cons_of_mem k hk2)
                  (fun hc2 => hknotin (hc2 ▸ hk2)) v2 hv2 hkeep2 hceq
            · intro k3 hk3 hne3 w hw hkw
              rw [hgetN k3 hk3] at hw
              exact hb k3 (List.mem_cons_of_mem k hk3) hne3 w hw hkw
        obtain ⟨m', hrun, hperm⟩ :=
          ih (mapInsert (mapRemove m k).1 (key (pred v).1) (pred v).1) hnN hnd' hpresN hfreshN
        refine ⟨m', ?_, ?_⟩
        · rw [retainGo_cons_eq key pred k ks m v hv, if_pos hcond, if_pos hkeep]
          exact hrun
        · have hgi : goImage key pred
              (mapInsert (mapRemove m k).1 (key (pred v).1) (pred v).1) ks =
              goImage key pred m ks := goImage_congr _ _ _ _ _ hgetN
          have hk'notks : key (pred v).1 ∉ ks := fun hc => hfk (hksmem _ hc)
          have hko : keepOutside
              (mapInsert (mapRemove m k).1 (key (pred v).1) (pred v).1) ks =
              keepOutside m (k :: ks) ++ [(key (pred v).1, (pred v).1)] := by
            rw [hmN, hrm, keepOutside_append_single _ _ _ _ hk'notks,
              keepOutside_eraseKey]
          rw [hko, hgi, List.append_assoc, List.singleton_append] at hperm
          rw [goImage_cons_kept key pred m k ks v hv hkeep]
          exact hperm
    · -- dropped
      have hkeepF : (pred v).2 = false := Bool.eq_false_iff.mpr hkeep
      have hcond : (pred v).2 = false ∨ key (pred v).1 ≠ k := Or.inl hkeepF
      have hr_nodup : KeysNodup (mapRemove m k).1 := keysNodup_mapRemove m k hn
      have hgetN : ∀ k2 ∈ ks, mapGet (mapRemove m k).1 k2 = mapGet m k2 := by
        intro k2 hk2
        exact mapGet_remove_ne m k k2 (fun hc => hknotin (hc ▸ hk2))
      have hpresN : ∀ k2 ∈ ks, (mapGet (mapRemove m k).1 k2).isSome := by
        intro k2 hk2
        rw [hgetN k2 hk2]
        exact hpres k2 (List.mem_cons_of_mem k hk2)
      have hfreshN : ∀ k2 ∈ ks, ∀ v2,
          mapGet (mapRemove m k).1 k2 = some v2 → (pred v2).2 = true →
          key (pred v2).1 = k2 ∨
          (key (pred v2).1 ∉ (mapRemove m k).1.map Prod.fst ∧
            ∀ k3 ∈ ks, k3 ≠ k2 → ∀ w,
              mapGet (mapRemove m k).1 k3 = some w →
              (pred w).2 = true → key (pred w).1 ≠ key (pred v2).1) := by
        intro k2 hk2 v2 hv2 hkeep2
        rw [hgetN k2 hk2] at hv2
        rcases hfresh k2 (List.mem_cons_of_mem k hk2) v2 hv2 hkeep2 with h | ⟨ha, hb⟩
        · exact Or.inl h
        · refine Or.inr ⟨fun hc => ha (keys_mapRemove_subset m k _ hc), ?_⟩
          intro k3 hk3 hne3 w hw hkw
          rw [hgetN k3 hk3] at hw
          exact hb k3 (List.mem_cons_of_mem k hk3) hne3 w hw hkw
      obtain ⟨m', hrun, hperm⟩ := ih (mapRemove m k).1 hr_nodup hnd' hpresN hfreshN
      refine ⟨m', ?_, ?_⟩
      · rw [retainGo_cons_eq key pred k ks m v hv, if_pos hcond,
          if_neg (by rw [hkeepF]; exact Bool.false_ne_true)]
        exact hrun
      · have hgi : goImage key pred (mapRemove m k).1 ks =
            goImage key pred m ks := goImage_congr _ _ _ _ _ hgetN
        have hko : keepOutside (mapRemove m k).1 ks = keepOutside m (k :: ks) := by
          rw [mapRemove_eq_eraseKey m k hn, keepOutside_eraseKey]
        rw [hko, hgi] at hperm
        rw [goImage_cons_dropped key pred m k ks v hv hkeepF]
        exact hperm

omit [DecidableEq K] in
theorem keptImage_kept (key : V → K) (pred : V → V × Bool) (p : K × V)
    (h : (pred p.2).2 = true) :
    keptImage key pred p = some (key (pred p.2).1, (pred p.2).1) := by
  unfold keptImage
  rw [if_pos h]

omit [DecidableEq K] in
theorem keptImage_dropped (key : V → K) (pred : V → V × Bool) (p : K × V)
    (h : (pred p.2).2 = false) : keptImage key pred p = none := by
  unfold keptImage
  rw [if_neg (by rw [h]; exact Bool.false_ne_true)]

omit [DecidableEq K] in
theorem length_filterMap_keptImage (key : V → K) (pred : V → V × Bool) :
    ∀ (l : List (K × V)),
      (l.filterMap (keptImage key pred)).length =
        l.countP (fun p => (pred p.2).2) := by
  intro l
  induction l with
  | nil => rfl
  | cons p ps ih =>
    rw [List.filterMap_cons, List.countP_cons]
    by_cases h : (pred p.2).2
    · rw [keptImage_kept key pred p h]
      simp [ih, h]
    · have h' : (pred p.2).2 = false := Bool.eq_false_iff.mpr h
      rw [keptImage_dropped key pred p h']
      simp [ih, h']

omit [DecidableEq K] in
theorem filterMap_keptImage_true (key : V → K) (f : V → V) :
    ∀ (l : List (K × V)),
      l.filterMap (keptImage key (fun v => (f v, true))) =
        l.map (fun p => (key (f p.2), f p.2)) := by
  intro l
  induction l with
  | nil => rfl
  | cons p ps ih =>
    rw [List.filterMap_cons, List.map_cons, keptImage_kept key _ p rfl, ih]

/-- The net effect of a full `retain` run under the no-collision side
conditions, shared by the `retain` and `modify_all` claims. -/
theorem retain_spec_aux (key : V → K) (s : DualHashSet K V)
    (pred : V → V × Bool) (hn : KeysNodup s.entries)
    (hc : Coherent key s.entries)
    (hfresh : ∀ p ∈ s.entries, (pred p.2).2 = true →
      key (pred p.2).1 = p.1 ∨
      (key (pred p.2).1 ∉ s.entries.map Prod.fst ∧
        ∀ q ∈ s.entries, q.1 ≠ p.1 → (pred q.2).2 = true →
          key (pred q.2).1 ≠ key (pred p.2).1)) :
    ∃ s', DualHashSet.retain key s pred = some s' ∧
      s'.entries.Perm (s.entries.filterMap (keptImage key pred)) ∧
      DualHashSet.len s' = s.entries.countP (fun p => (pred p.2).2) := by
  have hpres : ∀ k ∈ s.entries.map Prod.fst, (mapGet s.entries k).isSome :=
    fun k hk => (mem_keys_iff_isSome _ k).mp hk
  have hfresh' : ∀ k ∈ s.entries.map Prod.fst, ∀ v,
      mapGet s.entries k = some v → (pred v).2 = true →
      key (pred v).1 = k ∨
      (key (pred v).1 ∉ s.entries.map Prod.fst ∧
        ∀ k2 ∈ s.entries.map Prod.fst, k2 ≠ k → ∀ w,
          mapGet s.entries k2 = some w → (pred w).2 = true →
          key (pred w).1 ≠ key (pred v).1) := by
    intro k _ v hvk hkeep
    have hmem : (k, v) ∈ s.entries := mapGet_mem _ _ _ hvk
    rcases hfresh (k, v) hmem hkeep with h | ⟨ha, hb⟩
    · exact Or.inl h
    · refine Or.inr ⟨ha, ?_⟩
      intro k2 _ hne w hw hkw
      exact hb (k2, w) (mapGet_mem _ _ _ hw) hne hkw
  obtain ⟨m', hrun, hperm⟩ :=
    retainGo_perm key pred (s.entries.map Prod.fst) s.entries hn hn hpres hfresh'
  have hko : keepOutside s.entries (s.entries.map Prod.fst) = [] :=
    keepOutside_eq_nil _ _ (fun p hp => List.mem_map.mpr ⟨p, hp, rfl⟩)
  rw [hko, List.nil_append, goImage_keys key pred s.entries hn] at hperm
  refine ⟨⟨m'⟩, ?_, hperm, ?_⟩
  · unfold DualHashSet.retain
    rw [keysList_eq_keys key s hc, hrun]
    rfl
  · show m'.length = _
    rw [hperm.length_eq]
    exact length_filterMap_keptImage key pred s.entries

/-- Predicate used by the C2/C10 counterexamples: keep everything, and
move the element at key 1 onto key 2. -/
def predC2 : Nat × Nat → (Nat × Nat) × Bool :=
  fun v => if v.1 = 1 then ((2, v.2), true) else (v, true)

/-- C2 counterexample: `retain` on `{(1,10), (2,20)}` with a predicate
that keeps every element but moves the element at key 1 onto key 2.  Both
elements are predicate-kept, yet the final container has a single entry
and the kept element `(2,20)` is gone — so the final `len()` (1) differs
from the number of kept elements (2), falsifying the claim precisely in
the collision case it includes. -/
theorem retain_collision_cex :
    DualHashSet.retain keyN ⟨[(1, (1, 10)), (2, (2, 20))]⟩ predC2 =
      some ⟨[(2, (2, 10))]⟩ ∧
    (predC2 (1, 10)).2 = true ∧ (predC2 (2, 20)).2 = true ∧
    ((2 : Nat), ((2 : Nat), (20 : Nat))) ∉
      [((2 : Nat), ((2 : Nat), (10 : Nat)))] ∧
    DualHashSet.len ⟨[((2 : Nat), ((2 : Nat), (10 : Nat)))]⟩ = 1 :=
  ⟨rfl, rfl, rfl, by decide, rfl⟩

/-- C2 (amended): after `retain(predicate)` the container contains exactly
the predicate-kept elements, each indexed under its post-mutation key, and
`len()` equals the number of kept elements — provided every kept element
either keeps its key or moves it to a key that is fresh (not occupied at
the start of the call) and not claimed by another kept element.  When a
kept element's new key collides with another element's slot, the occupant
is silently destroyed instead (see the counterexample and C10). -/
theorem retain_spec (key : V → K) (s : DualHashSet K V)
    (pred : V → V × Bool) (hn : KeysNodup s.entries)
    (hc : Coherent key s.entries)
    (hfresh : ∀ p ∈ s.entries, (pred p.2).2 = true →
      key (pred p.2).1 = p.1 ∨
      (key (pred p.2).1 ∉ s.entries.map Prod.fst ∧
        ∀ q ∈ s.entries, q.1 ≠ p.1 → (pred q.2).2 = true →
          key (pred q.2).1 ≠ key (pred p.2).1)) :
    ∃ s', DualHashSet.retain key s pred = some s' ∧
      s'.entries.Perm (s.entries.filterMap (keptImage key pred)) ∧
      DualHashSet.len s' = s.entries.countP (fun p => (pred p.2).2) :=
  retain_spec_aux key s pred hn hc hfresh

/-- Witness for C2 (amended): the kept element relocates to the fresh
key 11, the odd element is dropped. -/
theorem retain_spec_witness :
    ∃ s', DualHashSet.retain keyN ⟨[(1, (1, 10)), (2, (2, 21))]⟩
        (fun v => ((v.1 + 10, v.2), v.2 % 2 == 0)) = some s' ∧
      s'.entries.Perm ([(1, (1, 10)), (2, (2, 21))].filterMap
        (keptImage keyN (fun v => ((v.1 + 10, v.2), v.2 % 2 == 0)))) ∧
      DualHashSet.len s' = List.countP
        (fun p => ((fun v => ((v.1 + 10, v.2), v.2 % 2 == 0)) p.2).2)
        [(1, (1, 10)), (2, (2, 21))] :=
  retain_spec keyN ⟨[(1, (1, 10)), (2, (2, 21))]⟩
    (fun v => ((v.1 + 10, v.2), v.2 % 2 == 0))
    (by unfold KeysNodup; decide) (by unfold Coherent; decide)
    (by unfold keyN; decide)

/-- Mutation used by the C8/C10 counterexamples: move the element at key
1 onto key 2, and bump every other element's value. -/
def fC8 : Nat × Nat → Nat × Nat :=
  fun v => if v.1 = 1 then (2, v.2) else (v.1, v.2 + 1)

/-- C8 counterexample: `modify_all` on `{(1,10), (2,20)}` with a mutation
that moves the first element onto key 2.  The mutation's image of the
start element `(2,20)` is `(2,21)`, but the final container is the single
entry `(2,(2,11))`: `f` was never applied to `(2,20)` (it was destroyed
by the relocation, and `f` was instead applied twice to the relocated
element), falsifying the claim in the collision case it includes. -/
theorem modify_all_collision_cex :
    DualHashSet.modify_all keyN ⟨[(1, (1, 10)), (2, (2, 20))]⟩ fC8 =
      some ⟨[(2, (2, 11))]⟩ ∧
    fC8 (2, 20) = (2, 21) ∧
    ((2 : Nat), ((2 : Nat), (21 : Nat))) ∉
      [((2 : Nat), ((2 : Nat), (11 : Nat)))] ∧
    DualHashSet.len ⟨[((2 : Nat), ((2 : Nat), (11 : Nat)))]⟩ = 1 :=
  ⟨rfl, rfl, by decide, rfl⟩

/-- C8 (amended): `modify_all(f)` applies `f` to every element stored at
the start and stores each image under its post-mutation key — provided
every element either keeps its key under `f` or moves to a fresh key not
claimed by another element; `len` is preserved.  When `f` maps one
element's key onto another stored element's key, the occupant is silently
destroyed instead (see the counterexample and C10). -/
theorem modify_all_spec (key : V → K) (s : DualHashSet K V) (f : V → V)
    (hn : KeysNodup s.entries) (hc : Coherent key s.entries)
    (hfresh : ∀ p ∈ s.entries,
      key (f p.2) = p.1 ∨
      (key (f p.2) ∉ s.entries.map Prod.fst ∧
        ∀ q ∈ s.entries, q.1 ≠ p.1 → key (f q.2) ≠ key (f p.2))) :
    ∃ s', DualHashSet.modify_all key s f = some s' ∧
      s'.entries.Perm (s.entries.map (fun p => (key (f p.2), f p.2))) ∧
      DualHashSet.len s' = DualHashSet.len s := by
  have hfresh2 : ∀ p ∈ s.entries, (true : Bool) = true →
      key (f p.2) = p.1 ∨
      (key (f p.2) ∉ s.entries.map Prod.fst ∧
        ∀ q ∈ s.entries, q.1 ≠ p.1 → (true : Bool) = true →
          key (f q.2) ≠ key (f p.2)) := by
    intro p hp _
    rcases hfresh p hp with h | ⟨ha, hb⟩
    · exact Or.inl h
    · exact Or.inr ⟨ha, fun q hq hqp _ => hb q hq hqp⟩
  obtain ⟨s', hrun, hperm, hlen⟩ :=
    retain_spec_aux key s (fun v => (f v, true)) hn hc hfresh2
  refine ⟨s', hrun, ?_, ?_⟩
  · rw [filterMap_keptImage_true key f s.entries] at hperm
    exact hperm
  · rw [hlen]
    show s.entries.countP (fun _ => true) = s.entries.length
    exact congrFun List.countP_true s.entries

/-- Witness for C8 (amended): every element moves to a fresh key. -/
theorem modify_all_spec_witness :
    ∃ s', DualHashSet.modify_all keyN ⟨[(1, (1, 10)), (2, (2, 20))]⟩
        (fun v => (v.1 + 10, v.2)) = some s' ∧
      s'.entries.Perm ([(1, (1, 10)), (2, (2, 20))].map
        (fun p => (keyN ((p.2).1 + 10, (p.2).2), ((p.2).1 + 10, (p.2).2)))) ∧
      DualHashSet.len s' = DualHashSet.len ⟨[(1, (1, 10)), (2, (2, 20))]⟩ :=
  modify_all_spec keyN ⟨[(1, (1, 10)), (2, (2, 20))]⟩ (fun v => (v.1 + 10, v.2))
    (by unfold KeysNodup; decide) (by unfold Coherent; decide)
    (by unfold keyN; decide)

/-- C1: Index coherence invariant: in every container reachable from
`new`/`default` by completed public operations (insert, remove, clear,
modify, modify_all, retain, get_mut/get_or_insert_with guard acquisition,
writes and release), every stored element `e` is found by `get` at its own
key: `get(e.key())` returns `e`. -/
theorem index_coherence (key : V → K) (s : DualHashSet K V)
    (h : Reachable key s) :
    ∀ p ∈ s.entries, DualHashSet.get s (key p.2) = some p.2 := by
  intro p hp
  have hinv := reachable_inv key s h
  have hk : key p.2 = p.1 := hinv.2 p hp
  show mapGet s.entries (key p.2) = some p.2
  rw [hk]
  exact mem_mapGet s.entries p.1 p.2 hp hinv.1

/-- Witness for C1 at the container `new` followed by `insert (3, 7)`. -/
theorem index_coherence_witness :
    DualHashSet.get (DualHashSet.insert keyN DualHashSet.new (3, 7)).1
      (keyN (3, 7)) = some (3, 7) :=
  index_coherence keyN _ (Reachable.insert DualHashSet.new (3, 7) Reachable.new)
    (3, (3, 7)) (by decide)

/-- C9: The internal `unwrap`s of `retain` are total: on any container
whose map is a real `HashMap` (distinct keys) satisfying index coherence,
`retain` never panics, for every predicate — every snapshotted key is
still present in the map when the loop visits it. -/
theorem retain_total (key : V → K) (s : DualHashSet K V)
    (pred : V → V × Bool) (hn : KeysNodup s.entries)
    (hc : Coherent key s.entries) :
    (DualHashSet.retain key s pred).isSome := by
  unfold DualHashSet.retain
  rw [keysList_eq_keys key s hc]
  have hpres : ∀ k ∈ s.entries.map Prod.fst, (mapGet s.entries k).isSome :=
    fun k hk => (mem_keys_iff_isSome s.entries k).mp hk
  have h := retainGo_isSome key pred (s.entries.map Prod.fst) s.entries hn hpres
  obtain ⟨m', hm'⟩ := Option.isSome_iff_exists.mp h
  rw [hm']
  rfl

/-- Witness for C9 on a two-element coherent container with a key-changing
predicate. -/
theorem retain_total_witness :
    (DualHashSet.retain keyN ⟨[(1, (1, 10)), (2, (2, 20))]⟩
      (fun v => ((v.1 + 2, v.2), v.2 % 2 == 0))).isSome :=
  retain_total keyN ⟨[(1, (1, 10)), (2, (2, 20))]⟩
    (fun v => ((v.1 + 2, v.2), v.2 % 2 == 0))
    (by unfold KeysNodup; decide) (by unfold Coherent; decide)

/-- C3: `modify(k, f)` returns `None` and leaves the container unchanged
when `k` is absent; otherwise it applies `f` once to the element at `k`,
returns `Some` of `f`'s result, and when `f` changed the key to
`k2 ≠ k`, afterward `contains k` is false, `contains k2` is true, and the
element at `k2` is the mutated element. -/
theorem modify_spec {R : Type} (key : V → K) (s : DualHashSet K V) (k : K)
    (f : V → V × R) (hn : KeysNodup s.entries) :
    (mapGet s.entries k = none → DualHashSet.modify key s k f = some (s, none)) ∧
    (∀ v, mapGet s.entries k = some v →
      ∃ s', DualHashSet.modify key s k f = some (s', some (f v).2) ∧
        (key (f v).1 = k → s'.entries = mapInsert s.entries k (f v).1) ∧
        (key (f v).1 ≠ k →
          DualHashSet.contains s' k = false ∧
          DualHashSet.contains s' (key (f v).1) = true ∧
          DualHashSet.get s' (key (f v).1) = some (f v).1)) := by
  constructor
  · intro hg
    exact modify_absent key s k f hg
  · intro v hg
    by_cases hck : key (f v).1 = k
    · refine ⟨⟨mapInsert s.entries k (f v).1⟩, ?_, fun _ => rfl,
        fun hne => absurd hck hne⟩
      rw [modify_present key s k f v hg, if_pos hck]
    · refine ⟨⟨mapInsert (mapRemove s.entries k).1 (key (f v).1) (f v).1⟩,
        ?_, fun heq => absurd heq hck, ?_⟩
      · rw [modify_present key s k f v hg, if_neg hck]
      · intro hne
        refine ⟨?_, ?_, ?_⟩
        · show (mapGet (mapInsert (mapRemove s.entries k).1
            (key (f v).1) (f v).1) k).isSome = false
          rw [mapGet_insert_ne _ _ _ _ (Ne.symm hne),
            mapGet_remove_self s.entries k hn]
          rfl
        · show (mapGet (mapInsert (mapRemove s.entries k).1
            (key (f v).1) (f v).1) (key (f v).1)).isSome = true
          rw [mapGet_insert_self]
          rfl
        · show mapGet (mapInsert (mapRemove s.entries k).1
            (key (f v).1) (f v).1) (key (f v).1) = some (f v).1
          rw [mapGet_insert_self]

/-- Witness for C3: on `{(3,3), (4,4)}`, modify the element at key 4,
changing its key to 7. -/
theorem modify_spec_witness :
    ∃ s', DualHashSet.modify keyN ⟨[(3, (3, 3)), (4, (4, 4))]⟩ 4
        (fun v => ((7, v.2), v.2)) = some (s', some 4) ∧
      (keyN ((7 : Nat), (4 : Nat)) = 4 →
        s'.entries = mapInsert [(3, (3, 3)), (4, (4, 4))] 4 (7, 4)) ∧
      (keyN ((7 : Nat), (4 : Nat)) ≠ 4 →
        DualHashSet.contains s' 4 = false ∧
        DualHashSet.contains s' (keyN (7, 4)) = true ∧
        DualHashSet.get s' (keyN (7, 4)) = some (7, 4)) :=
  (modify_spec keyN ⟨[(3, (3, 3)), (4, (4, 4))]⟩ 4
    (fun v => ((7, v.2), v.2)) (by unfold KeysNodup; decide)).2 (4, 4) (by decide)

/-- C4: The guard path is equivalent to the closure path: acquiring a
guard with `get_mut(k)`, applying a mutation through it and releasing it
produces exactly the container `modify(k, m)` produces; when the mutation
changed the key to `new_key ≠ k`, afterward `contains k` is false and
`contains new_key` is true. -/
theorem guard_models_modify (key : V → K) (s : DualHashSet K V) (k : K)
    (v : V) (mf : V → V) (hn : KeysNodup s.entries)
    (hv : DualHashSet.get s k = some v) (hk : key v = k) :
    ∃ g' s', DualHashSet.get_mut key s k = some ⟨s, k⟩ ∧
      DualHashSetRef.write ⟨s, k⟩ mf = some g' ∧
      DualHashSetRef.drop key g' = some s' ∧
      DualHashSet.modify key s k (fun w => (mf w, ())) = some (s', some ()) ∧
      (key (mf v) ≠ k →
        DualHashSet.contains s' k = false ∧
        DualHashSet.contains s' (key (mf v)) = true) := by
  have hv' : mapGet s.entries k = some v := hv
  have hgm : DualHashSet.get_mut key s k = some ⟨s, k⟩ := by
    rw [get_mut_some key s k v hv, hk]
  have hw : DualHashSetRef.write (⟨s, k⟩ : DualHashSetRef K V) mf =
      some ⟨⟨mapInsert s.entries k (mf v)⟩, k⟩ :=
    write_some ⟨s, k⟩ mf v hv'
  have hg1 : mapGet (mapInsert s.entries k (mf v)) k = some (mf v) :=
    mapGet_insert_self s.entries k (mf v)
  by_cases hck : key (mf v) = k
  · refine ⟨⟨⟨mapInsert s.entries k (mf v)⟩, k⟩, ⟨mapInsert s.entries k (mf v)⟩,
      hgm, hw, ?_, ?_, fun hne => absurd hck hne⟩
    · exact drop_same key _ (mf v) hg1 hck
    · rw [modify_present key s k (fun w => (mf w, ())) v hv', if_pos hck]
  · refine ⟨⟨⟨mapInsert s.entries k (mf v)⟩, k⟩,
      ⟨mapInsert (mapRemove s.entries k).1 (key (mf v)) (mf v)⟩,
      hgm, hw, ?_, ?_, ?_⟩
    · have hrr : (mapRemove (mapInsert s.entries k (mf v)) k).1 =
          (mapRemove s.entries k).1 := by
        rw [mapRemove_mapInsert_present s.entries k (mf v) (by rw [hv']; rfl)]
      rw [← hrr]
      exact drop_reloc key _ (mf v) hg1 hck
    · rw [modify_present key s k (fun w => (mf w, ())) v hv', if_neg hck]
    · intro _
      constructor
      · show (mapGet (mapInsert (mapRemove s.entries k).1
          (key (mf v)) (mf v)) k).isSome = false
        rw [mapGet_insert_ne _ _ _ _ (Ne.symm hck),
          mapGet_remove_self s.entries k hn]
        rfl
      · show (mapGet (mapInsert (mapRemove s.entries k).1
          (key (mf v)) (mf v)) (key (mf v))).isSome = true
        rw [mapGet_insert_self]
        rfl

/-- Witness for C4: on `{(3,3)}`, mutate the element's key to 30 through
a guard (the crate's `get_mut` test scenario). -/
theorem guard_models_modify_witness :
    ∃ g' s', DualHashSet.get_mut keyN ⟨[(3, (3, 3))]⟩ 3 =
        some ⟨⟨[(3, (3, 3))]⟩, 3⟩ ∧
      DualHashSetRef.write ⟨⟨[(3, (3, 3))]⟩, 3⟩ (fun w => (30, w.2)) = some g' ∧
      DualHashSetRef.drop keyN g' = some s' ∧
      DualHashSet.modify keyN ⟨[(3, (3, 3))]⟩ 3
        (fun w => ((30, w.2), ())) = some (s', some ()) ∧
      (keyN ((30 : Nat), (3 : Nat)) ≠ 3 →
        DualHashSet.contains s' 3 = false ∧
        DualHashSet.contains s' (keyN (30, 3)) = true) :=
  guard_models_modify keyN ⟨[(3, (3, 3))]⟩ 3 (3, 3) (fun w => (30, w.2))
    (by unfold KeysNodup; decide) (by decide) (by decide)

/-- C7: Insert round trip and displacement: after `insert(e)`,
`get(e.key())` yields `e`; `insert` returns the prior occupant of that
exact key slot (`None` when there was none); afterward there is exactly
one entry filed under `e.key()`. -/
theorem insert_round_trip (key : V → K) (s : DualHashSet K V) (v : V)
    (hn : KeysNodup s.entries) :
    DualHashSet.get (DualHashSet.insert key s v).1 (key v) = some v ∧
    (DualHashSet.insert key s v).2 = DualHashSet.get s (key v) ∧
    (DualHashSet.insert key s v).1.entries.countP
      (fun p => decide (p.1 = key v)) = 1 := by
  refine ⟨?_, rfl, countP_keys_mapInsert s.entries (key v) v hn⟩
  show mapGet (mapInsert s.entries (key v) v) (key v) = some v
  exact mapGet_insert_self s.entries (key v) v

/-- Witness for C7: inserting `(5, 2)` into a container already holding
`(5, 1)` — the same-key displacement scenario. -/
theorem insert_round_trip_witness :
    DualHashSet.get (DualHashSet.insert keyN ⟨[(5, (5, 1))]⟩ (5, 2)).1
      (keyN (5, 2)) = some (5, 2) ∧
    (DualHashSet.insert keyN ⟨[(5, (5, 1))]⟩ (5, 2)).2 =
      DualHashSet.get ⟨[(5, (5, 1))]⟩ (keyN (5, 2)) ∧
    (DualHashSet.insert keyN ⟨[(5, (5, 1))]⟩ (5, 2)).1.entries.countP
      (fun p => decide (p.1 = keyN (5, 2))) = 1 :=
  insert_round_trip keyN ⟨[(5, (5, 1))]⟩ (5, 2) (by unfold KeysNodup; decide)

theorem goiw_present (key : V → K) (s : DualHashSet K V) (k : K) (f : K → V)
    (hc : DualHashSet.contains s k = true) :
    DualHashSet.get_or_insert_with key s k f = ⟨s, k⟩ := by
  unfold DualHashSet.get_or_insert_with
  rw [if_pos hc]

theorem goiw_absent (key : V → K) (s : DualHashSet K V) (k : K) (f : K → V)
    (hc : DualHashSet.contains s k = false) :
    DualHashSet.get_or_insert_with key s k f =
      ⟨⟨mapInsert s.entries (key (f k)) (f k)⟩, k⟩ := by
  unfold DualHashSet.get_or_insert_with
  rw [if_neg (by rw [hc]; exact Bool.false_ne_true)]
  rfl

/-- C5 counterexample: `get_or_insert_with(1, factory)` on an empty
container with a factory whose output self-reports key 2.  Exactly one
element is inserted, but it is filed under the element's own key 2, not
under the requested key 1 — `contains 1` is false afterward, falsifying
"inserts it under the requested key k". -/
theorem goiw_requested_key_cex :
    DualHashSet.contains
      (DualHashSet.get_or_insert_with keyN ⟨[]⟩ 1 (fun _ => (2, 99))).set 1 =
      false ∧
    DualHashSet.len
      (DualHashSet.get_or_insert_with keyN ⟨[]⟩ 1 (fun _ => (2, 99))).set = 1 ∧
    DualHashSet.get
      (DualHashSet.get_or_insert_with keyN ⟨[]⟩ 1 (fun _ => (2, 99))).set 2 =
      some (2, 99) :=
  ⟨rfl, rfl, rfl⟩

/-- C5 (amended): `get_or_insert_with(k, factory)` never invokes the
factory when `k` is present (the result does not depend on the factory and
the container is unchanged); when `k` is absent it invokes the factory
exactly once with `k` and inserts its output — filed under the output's
own self-reported key (which is `k` exactly when the factory honors its
contract), adding one entry when that key is fresh; the returned guard
always remembers the requested key `k`. -/
theorem get_or_insert_with_spec (key : V → K) (s : DualHashSet K V) (k : K)
    (f g : K → V) :
    (DualHashSet.contains s k = true →
      DualHashSet.get_or_insert_with key s k f = ⟨s, k⟩ ∧
      DualHashSet.get_or_insert_with key s k f =
        DualHashSet.get_or_insert_with key s k g) ∧
    (DualHashSet.contains s k = false →
      (DualHashSet.get_or_insert_with key s k f).set.entries =
        mapInsert s.entries (key (f k)) (f k) ∧
      (DualHashSet.get_or_insert_with key s k f).key = k ∧
      (key (f k) ∉ s.entries.map Prod.fst →
        DualHashSet.len (DualHashSet.get_or_insert_with key s k f).set =
          DualHashSet.len s + 1)) := by
  constructor
  · intro hc
    rw [goiw_present key s k f hc, goiw_present key s k g hc]
    exact ⟨rfl, rfl⟩
  · intro hc
    rw [goiw_absent key s k f hc]
    refine ⟨rfl, rfl, ?_⟩
    intro hk
    show (mapInsert s.entries (key (f k)) (f k)).length = s.entries.length + 1
    apply length_mapInsert_absent
    rw [← Option.not_isSome_iff_eq_none, ← mem_keys_iff_isSome]
    exact hk

/-- Witness for C5 (amended): a present key (factory not consulted) and
an absent key (container grows by one entry). -/
theorem get_or_insert_with_spec_witness :
    DualHashSet.get_or_insert_with keyN ⟨[(1, (1, 5))]⟩ 1 (fun n => (n, 0)) =
      ⟨⟨[(1, (1, 5))]⟩, 1⟩ ∧
    DualHashSet.len
      (DualHashSet.get_or_insert_with keyN ⟨[]⟩ 3 (fun n => (n, 7))).set =
      DualHashSet.len (⟨[]⟩ : DualHashSet Nat (Nat × Nat)) + 1 :=
  ⟨((get_or_insert_with_spec keyN ⟨[(1, (1, 5))]⟩ 1 (fun n => (n, 0))
      (fun n => (n, 0))).1 (by decide)).1,
    ((get_or_insert_with_spec keyN ⟨[]⟩ 3 (fun n => (n, 7))
      (fun n => (n, 7))).2 (by decide)).2.2 (by decide)⟩

/-- C6 counterexample: with a factory whose output self-reports key 2,
`get_or_insert_with(1, factory)` on an empty container returns a guard
remembering key 1 while the element sits at key 2; the guard's first
access (`Deref`) and its release (`Drop`) both hit
`.get(&self.key).unwrap()` on the empty slot 1 and panic (modelled as
`none`) — the mismatch is a crash path, not lazily resolved. -/
theorem goiw_mismatch_cex :
    DualHashSetRef.drop keyN
      (DualHashSet.get_or_insert_with keyN ⟨[]⟩ 1 (fun _ => (2, 99))) = none ∧
    DualHashSetRef.deref
      (DualHashSet.get_or_insert_with keyN ⟨[]⟩ 1 (fun _ => (2, 99))) = none :=
  ⟨rfl, rfl⟩

/-- C6 (amended): when the factory's output self-reports a key `≠ k` and
`k` is absent, the `get_or_insert_with` call itself completes and files
the element under the output's own key, but the returned guard is
positioned at the empty slot `k`: every subsequent guard access and the
guard release panic on their internal `unwrap` — the mismatch is rejected
by panic at first guard use, not tolerated and lazily resolved. -/
theorem goiw_mismatch_panics (key : V → K) (s : DualHashSet K V) (k : K)
    (f : K → V) (hc : DualHashSet.contains s k = false)
    (hne : key (f k) ≠ k) :
    DualHashSet.get
      (DualHashSet.get_or_insert_with key s k f).set (key (f k)) =
      some (f k) ∧
    DualHashSetRef.deref (DualHashSet.get_or_insert_with key s k f) = none ∧
    DualHashSetRef.drop key (DualHashSet.get_or_insert_with key s k f) =
      none := by
  rw [goiw_absent key s k f hc]
  have h0 : mapGet s.entries k = none := by
    have hc2 : (mapGet s.entries k).isSome = false := hc
    rw [← Option.not_isSome_iff_eq_none, hc2]
    exact Bool.false_ne_true
  have hgk : mapGet (mapInsert s.entries (key (f k)) (f k)) k = none := by
    rw [mapGet_insert_ne _ _ _ _ (Ne.symm hne)]
    exact h0
  refine ⟨?_, ?_, ?_⟩
  · show mapGet (mapInsert s.entries (key (f k)) (f k)) (key (f k)) = some (f k)
    exact mapGet_insert_self _ _ _
  · show mapGet (mapInsert s.entries (key (f k)) (f k)) k = none
    exact hgk
  · exact drop_none key _ hgk

/-- Witness for C6 (amended). -/
theorem goiw_mismatch_panics_witness :
    DualHashSet.get
      (DualHashSet.get_or_insert_with keyN ⟨[]⟩ 5 (fun _ => (6, 1))).set
      (keyN (6, 1)) = some (6, 1) ∧
    DualHashSetRef.deref
      (DualHashSet.get_or_insert_with keyN ⟨[]⟩ 5 (fun _ => (6, 1))) = none ∧
    DualHashSetRef.drop keyN
      (DualHashSet.get_or_insert_with keyN ⟨[]⟩ 5 (fun _ => (6, 1))) = none :=
  goiw_mismatch_panics keyN ⟨[]⟩ 5 (fun _ => (6, 1)) (by decide) (by decide)

/-- C10: Relocation silently destroys colliding occupants.  For `modify`
and for guard release, universally: when the element at `k` acquires the
key `k2 ≠ k` of another stored element `w`, the relocation removes and
drops `w` without returning it, and `len` decreases by one although no
element was explicitly removed or rejected.  For `retain` and
`modify_all`, the same silent destruction on the concrete two-element
collision runs. -/
theorem relocation_displaces (key : V → K) :
    (∀ (R : Type) (s : DualHashSet K V) (k k2 : K) (v w : V) (f : V → V × R),
      KeysNodup s.entries → mapGet s.entries k = some v →
      mapGet s.entries k2 = some w → k ≠ k2 → key (f v).1 = k2 →
      ∃ s', DualHashSet.modify key s k f = some (s', some (f v).2) ∧
        DualHashSet.get s' k2 = some (f v).1 ∧
        DualHashSet.get s' k = none ∧
        DualHashSet.len s' + 1 = DualHashSet.len s) ∧
    (∀ (g : DualHashSetRef K V) (k2 : K) (v w : V),
      KeysNodup g.set.entries → mapGet g.set.entries g.key = some v →
      key v = k2 → k2 ≠ g.key → mapGet g.set.entries k2 = some w →
      ∃ s', DualHashSetRef.drop key g = some s' ∧
        DualHashSet.get s' k2 = some v ∧
        DualHashSet.get s' g.key = none ∧
        DualHashSet.len s' + 1 = DualHashSet.len g.set) ∧
    (DualHashSet.retain keyN ⟨[(1, (1, 10)), (2, (2, 20))]⟩ predC2 =
      some ⟨[(2, (2, 10))]⟩) ∧
    (DualHashSet.modify_all keyN ⟨[(1, (1, 10)), (2, (2, 20))]⟩ fC8 =
      some ⟨[(2, (2, 11))]⟩) := by
  refine ⟨?_, ?_, rfl, rfl⟩
  · intro R s k k2 v w f hn hv hw hne hk2
    have hck : key (f v).1 ≠ k := by
      rw [hk2]
      exact Ne.symm hne
    refine ⟨⟨mapInsert (mapRemove s.entries k).1 (key (f v).1) (f v).1⟩,
      ?_, ?_, ?_, ?_⟩
    · rw [modify_present key s k f v hv, if_neg hck]
    · show mapGet (mapInsert (mapRemove s.entries k).1
        (key (f v).1) (f v).1) k2 = some (f v).1
      rw [hk2]
      exact mapGet_insert_self (mapRemove s.entries k).1 k2 (f v).1
    · show mapGet (mapInsert (mapRemove s.entries k).1
        (key (f v).1) (f v).1) k = none
      rw [mapGet_insert_ne _ _ _ _ (Ne.symm hck)]
      exact mapGet_remove_self s.entries k hn
    · show (mapInsert (mapRemove s.entries k).1
        (key (f v).1) (f v).1).length + 1 = s.entries.length
      have hw2 : (mapGet (mapRemove s.entries k).1 (key (f v).1)).isSome := by
        rw [hk2, mapGet_remove_ne _ _ _ (Ne.symm hne), hw]
        rfl
      rw [length_mapInsert_present _ _ _ hw2]
      exact length_mapRemove_present s.entries k (by rw [hv]; rfl)
  · intro g k2 v w hn hv hk2 hne hw
    have hck : key v ≠ g.key := by
      rw [hk2]
      exact hne
    refine ⟨⟨mapInsert (mapRemove g.set.entries g.key).1 (key v) v⟩,
      drop_reloc key g v hv hck, ?_, ?_, ?_⟩
    · show mapGet (mapInsert (mapRemove g.set.entries g.key).1
        (key v) v) k2 = some v
      rw [hk2]
      exact mapGet_insert_self (mapRemove g.set.entries g.key).1 k2 v
    · show mapGet (mapInsert (mapRemove g.set.entries g.key).1
        (key v) v) g.key = none
      rw [mapGet_insert_ne _ _ _ _ (Ne.symm hck)]
      exact mapGet_remove_self g.set.entries g.key hn
    · show (mapInsert (mapRemove g.set.entries g.key).1
        (key v) v).length + 1 = g.set.entries.length
      have hw2 : (mapGet (mapRemove g.set.entries g.key).1 (key v)).isSome := by
        rw [hk2, mapGet_remove_ne _ _ _ hne, hw]
        rfl
      rw [length_mapInsert_present _ _ _ hw2]
      exact length_mapRemove_present g.set.entries g.key (by rw [hv]; rfl)

/-- Witness for C10 at concrete collision inputs for the `modify` and
guard-release conjuncts. -/
theorem relocation_displaces_witness :
    (∃ s', DualHashSet.modify keyN ⟨[(1, (1, 10)), (2, (2, 20))]⟩ 1
        (fun v => ((2, v.2), v.2)) = some (s', some 10) ∧
      DualHashSet.get s' 2 = some (2, 10) ∧
      DualHashSet.get s' 1 = none ∧
      DualHashSet.len s' + 1 =
        DualHashSet.len ⟨[(1, (1, 10)), (2, (2, 20))]⟩) ∧
    (∃ s', DualHashSetRef.drop keyN
        ⟨⟨[(1, (2, 10)), (2, (2, 20))]⟩, 1⟩ = some s' ∧
      DualHashSet.get s' 2 = some (2, 10) ∧
      DualHashSet.get s' 1 = none ∧
      DualHashSet.len s' + 1 =
        DualHashSet.len ⟨[(1, (2, 10)), (2, (2, 20))]⟩) := by
  have h := relocation_displaces keyN
  exact ⟨h.1 Nat ⟨[(1, (1, 10)), (2, (2, 20))]⟩ 1 2 (1, 10) (2, 20)
      (fun v => ((2, v.2), v.2)) (by unfold KeysNodup; decide) (by decide)
      (by decide) (by decide) (by decide),
    h.2.1 ⟨⟨[(1, (2, 10)), (2, (2, 20))]⟩, 1⟩ 2 (2, 10) (2, 20)
      (by unfold KeysNodup; decide) (by decide) (by decide) (by decide)
      (by decide)⟩

end Dualset
